import Mathlib

/-!
Verification of the image indexing and search engine
(module image_searcher.py of the image_tagging repository).

The Python module is shallowly embedded: the SQLite table image_features
becomes a list of ImageRecord values scanned in rowid order, SQL WHERE
clauses become list filters, LIMIT becomes List.take, and the Python
stable sort becomes insertion sort with a non-strict comparison.
Strings are modelled by Lean strings, real-valued timestamps and
similarity scores by rationals, and fallible calls by Option or Except.
-/

/-! ## Character classes

Models of the character classes appearing in the regular expressions of
the method clean_text (source lines 212 to 233).  The class for the
Python pattern backslash-s (and for str.strip) is the exact finite set
of Unicode whitespace characters recognized by Python on str input.
The word class models the Python word-character class (Unicode
alphanumerics plus underscore), realized here on the ASCII and CJK
ranges this corpus uses; the idempotence theorem below is proved for an
arbitrary word predicate, so nothing depends on this choice.
-/

def pyWhitespaceCodes : List Nat :=
  [0x20, 0x9, 0xA, 0xD, 0xB, 0xC, 0x1C, 0x1D, 0x1E, 0x1F, 0x85, 0xA0,
   0x1680, 0x2000, 0x2001, 0x2002, 0x2003, 0x2004, 0x2005, 0x2006,
   0x2007, 0x2008, 0x2009, 0x200A, 0x2028, 0x2029, 0x202F, 0x205F,
   0x3000]

def isPySpace (c : Char) : Bool :=
  c.toNat ∈ pyWhitespaceCodes

def isCRLFTab (c : Char) : Bool :=
  c.toNat ∈ [0xD, 0xA, 0x9]

def isCJK (c : Char) : Bool :=
  0x4E00 ≤ c.toNat && c.toNat ≤ 0x9FFF

def pyWordChar (c : Char) : Bool :=
  c.isAlphanum || c = '_' || isCJK c

/-- Characters kept by step 3 of clean_text: CJK ideographs, word
characters and whitespace; everything else is stripped. -/
def keepChar (wordP : Char → Bool) (c : Char) : Bool :=
  isCJK c || wordP c || isPySpace c

/-! ## The cleaning pipeline

The method clean_text applies, in order: substitution of runs of
carriage return, line feed and tab by a single space; strip plus
collapse of whitespace runs to a single space; removal of characters
outside the keep class; strip plus collapse again.  squashRuns p
replaces every maximal run of characters satisfying p by one space,
which is exactly re.sub of a one-class plus-pattern with a space.
-/

def squashRuns (p : Char → Bool) : List Char → List Char
  | [] => []
  | c :: cs =>
    if p c then ' ' :: squashRuns p (cs.dropWhile p) else c :: squashRuns p cs
termination_by l => l.length
decreasing_by
  · simp only [List.length_cons]
    exact Nat.lt_succ_of_le (List.dropWhile_sublist p).length_le
  · simp

/-- Model of the Python method str.strip: remove leading and trailing
whitespace. -/
def pyStrip (l : List Char) : List Char :=
  ((l.dropWhile isPySpace).reverse.dropWhile isPySpace).reverse

/-- Strip, then collapse every whitespace run to a single space: the
composition re.sub of a whitespace plus-pattern after str.strip used
twice inside clean_text. -/
def stripCollapse (l : List Char) : List Char :=
  squashRuns isPySpace (pyStrip l)

/-- Steps 1 to 4 of clean_text on a character list, parametric in the
word-character predicate. -/
def cleanChars (wordP : Char → Bool) (l : List Char) : List Char :=
  stripCollapse ((stripCollapse (squashRuns isCRLFTab l)).filter (keepChar wordP))

/-- Model of the method clean_text (source lines 212 to 233): empty or
non-string input yields the empty string, otherwise the four-step
pipeline runs. -/
def clean_text (s : String) : String :=
  if s = "" then "" else ⟨cleanChars pyWordChar s.data⟩

/-! ## Hamming distance

Model of the method hamming_distance (source lines 825 to 831): on
fingerprint strings of unequal length it returns the constant 64 (the
bit length of the 64-bit perceptual fingerprint, conventionally
rendered as 16 hexadecimal characters); on equal-length strings it
counts differing character positions.
-/

def hamming_distance (h1 h2 : String) : Nat :=
  if h1.length ≠ h2.length then 64
  else ((h1.data.zip h2.data).filter (fun p => p.1 != p.2)).length

/-! ## The image record store

One row of the SQLite table image_features, scanned in rowid order.
Column types follow the schema in init_database: file_hash and phash are
nullable in the schema, but file_hash is always written by the indexer,
so it is modelled as a plain string while phash stays optional.
-/

structure ImageRecord where
  id : Nat
  file_path : String
  file_hash : String
  phash : Option String
  ocr_text : String
  telegram_message_id : String
  updated_time : ℚ
  ocr_status : String
  ocr_fail_count : Nat
deriving DecidableEq

/-- Row shape returned by search_similar_images (source lines 833 to
889): the dictionary with path, message id, file hash, update time, OCR
text and similarity score. -/
structure SearchResult where
  path : String
  telegram_message_id : String
  file_hash : String
  updated_time : ℚ
  ocr_text : String
  similarity : ℚ
deriving DecidableEq

/-- Result built by the exact-hash branch: similarity 1.0. -/
def exactResult (r : ImageRecord) : SearchResult :=
  ⟨r.file_path, r.telegram_message_id, r.file_hash, r.updated_time,
    r.ocr_text, 1⟩

/-- Result built by the perceptual branch: similarity one minus distance
over 64. -/
def phashResult (r : ImageRecord) (distance : Nat) : SearchResult :=
  ⟨r.file_path, r.telegram_message_id, r.file_hash, r.updated_time,
    r.ocr_text, 1 - (distance : ℚ) / 64⟩

/-- The scan loop of the perceptual branch of search_similar_images
(source lines 862 to 882): the SQL WHERE clause excludes rows whose
phash is NULL, the loop additionally skips falsy (empty) phash strings,
and keeps a row when the Hamming distance to the query fingerprint is
at most threshold. -/
def similarScan (qphash : String) (threshold : ℤ) :
    List ImageRecord → List SearchResult
  | [] => []
  | r :: rest =>
    match r.phash with
    | none => similarScan qphash threshold rest
    | some p =>
      if p = "" then similarScan qphash threshold rest
      else if (hamming_distance qphash p : ℤ) ≤ threshold then
        phashResult r (hamming_distance qphash p) ::
          similarScan qphash threshold rest
      else similarScan qphash threshold rest

/-- Python list.sort with key similarity and reverse set: a stable
descending sort, modelled by insertion sort on a non-strict comparison. -/
def sortBySimilarity (l : List SearchResult) : List SearchResult :=
  l.insertionSort (fun a b => b.similarity ≤ a.similarity)

/-- Model of search_similar_images (source lines 833 to 889) after
feature extraction succeeded on the query image: qhash and qphash are
the fingerprints of the query.  The exact-duplicate branch returns the
first row whose file_hash equals the query hash, with similarity 1.0
and no truncation; otherwise the perceptual scan runs, is sorted
descending by similarity and truncated to max_results. -/
def search_similar_images (db : List ImageRecord) (qhash qphash : String)
    (threshold : ℤ) (max_results : Nat) : List SearchResult :=
  match db.find? (fun r => r.file_hash == qhash) with
  | some r => [exactResult r]
  | none =>
    (sortBySimilarity (similarScan qphash threshold db)).take max_results

/-- Claim C3 as amended, written from the specification words: the
stored records with a non-null, non-empty perceptual hash whose Hamming
distance to the query fingerprint is at most threshold, scored one
minus distance over 64, sorted descending by score and truncated to
max_results. -/
def findSimilarSpec (db : List ImageRecord) (qphash : String)
    (threshold : ℤ) (max_results : Nat) : List SearchResult :=
  (sortBySimilarity
    ((db.filter (fun r =>
        match r.phash with
        | none => false
        | some p =>
          p != "" && decide ((hamming_distance qphash p : ℤ) ≤ threshold))).map
      (fun r => phashResult r (hamming_distance qphash (r.phash.getD ""))))).take
    max_results

/-! ## OCR job selection and direct lookup -/

/-- The WHERE clause of the claim query in process_ocr_pending_images
(source lines 483 to 488): status pending, or status failed with fewer
than max_retries recorded failures. -/
def pendingPred (max_retries : Nat) (r : ImageRecord) : Bool :=
  r.ocr_status == "pending" ||
    (r.ocr_status == "failed" && decide (r.ocr_fail_count < max_retries))

/-- Model of the claim query of process_ocr_pending_images: SELECT id,
file_path with the pending-or-retryable WHERE clause, bounded by LIMIT
batch_size, scanning in rowid order. -/
def claimPendingOcr (db : List ImageRecord) (batch_size max_retries : Nat) :
    List (Nat × String) :=
  ((db.filter (pendingPred max_retries)).take batch_size).map
    (fun r => (r.id, r.file_path))

/-- Model of the record lookup used by get_ocr_by_message_id,
set_manual_ocr_result and clear_ocr_result: fetchone on WHERE
telegram_message_id equals the key, with no condition on OCR status or
fail count. -/
def find_by_message_id (db : List ImageRecord) (mid : String) :
    Option ImageRecord :=
  db.find? (fun r => r.telegram_message_id == mid)

/-! ## OCR gateway -/

/-- Environment of one extract_text_from_image call (source lines 296
to 359): which strategy the configuration selects, what the Mac
shortcut path would produce, whether lazily loading the engine in
ensure_ocr_engine (source lines 65 to 80) succeeds, and the raw result
of running recognition, a list of fragment-confidence pairs or an
exception. -/
structure OcrEnv where
  use_mac_shortcuts : Bool
  mac_text : String
  engine_loads : Bool
  recognition : Except String (List (String × ℚ))

/-- Model of str.strip on a string value. -/
def pyStripStr (s : String) : String :=
  ⟨pyStrip s.data⟩

/-- Confidence filter and join of extract_text_from_image: keep
fragments whose stripped text is non-blank and whose confidence exceeds
0.6, join the stripped texts with single spaces. -/
def joinRecognized (pairs : List (String × ℚ)) : String :=
  String.intercalate " "
    (pairs.filterMap (fun pr =>
      if pyStripStr pr.1 != "" && decide ((3 : ℚ) / 5 < pr.2) then
        some (pyStripStr pr.1)
      else none))

/-- Model of extract_text_from_image: the Mac shortcut strategy always
returns a string; otherwise ensure_ocr_engine runs first and its load
failure re-raises out of the method (the call sits outside the try
block), while any exception of recognition itself is caught and
converted to the empty string; successful raw output is filtered,
joined and cleaned. -/
def extract_text_from_image (env : OcrEnv) : Except String String :=
  if env.use_mac_shortcuts then Except.ok env.mac_text
  else if env.engine_loads = false then
    Except.error "Failed to load OCR engine"
  else
    match env.recognition with
    | Except.error _ => Except.ok ""
    | Except.ok pairs => Except.ok (clean_text (joinRecognized pairs))

/-! ## Simplified and traditional variant expansion -/

/-- One iteration of the loop of get_all_variants (source lines 379 to
410) on the accumulated variant list: append the keyword, then, if both
conversions succeed, append the traditional form when it differs from
the keyword and is absent, then the simplified form under the same
test; a conversion exception skips both appends for this keyword
only. -/
def variantsStep (t2s s2t : String → Option String) (acc : List String)
    (k : String) : List String :=
  let acc1 := acc ++ [k]
  match t2s k, s2t k with
  | some simplified, some traditional =>
    let acc2 :=
      if traditional ≠ k ∧ traditional ∉ acc1 then acc1 ++ [traditional]
      else acc1
    if simplified ≠ k ∧ simplified ∉ acc2 then acc2 ++ [simplified] else acc2
  | _, _ => acc1

/-- Model of get_all_variants: fold of the per-keyword step over the
keyword list, starting from the empty variant list.  The two converter
capabilities are passed as functions returning none on a conversion
exception. -/
def get_all_variants (t2s s2t : String → Option String)
    (keywords : List String) : List String :=
  keywords.foldl (variantsStep t2s s2t) []

/-! ## Comprehensive text search -/

/-- Row shape shared by the ranked (FTS5) and substring (LIKE)
strategies: path, message id, update time, the strategy tag, and the
relevance score (present only on ranked hits). -/
structure TextResult where
  path : String
  telegram_message_id : String
  updated_time : ℚ
  search_method : String
  score : Option ℚ
deriving DecidableEq

/-- Python dictionary assignment keyed by path: overwrite in place when
the key exists, append otherwise. -/
def upsertByPath (m : List TextResult) (r : TextResult) : List TextResult :=
  match m.findIdx? (fun x => x.path == r.path) with
  | some i => m.set i r
  | none => m ++ [r]

/-- Guarded insertion used for substring hits: only paths not already
present are added. -/
def addIfAbsent (m : List TextResult) (r : TextResult) : List TextResult :=
  if m.any (fun x => x.path == r.path) then m else m ++ [r]

/-- Python list.sort with key updated_time and reverse set: stable
descending. -/
def sortByUpdatedTime (l : List TextResult) : List TextResult :=
  l.insertionSort (fun a b => b.updated_time ≤ a.updated_time)

/-- Model of comprehensive_search (source lines 932 to 953).  The two
strategies are passed as functions from the requested limit to their
hit lists, abstracting fts_search_only and like_search_only.  The
ranked strategy runs first, asked for twice max_results hits; the
substring strategy runs only when the ranked hits cover fewer than
max_results distinct paths; the merged dictionary values are sorted by
update time descending and truncated. -/
def comprehensive_search (fts_search like_search : Nat → List TextResult)
    (max_results : Nat) : List TextResult :=
  let map1 := (fts_search (max_results * 2)).foldl upsertByPath []
  let map2 :=
    if map1.length < max_results then
      (like_search (max_results * 2)).foldl addIfAbsent map1
    else map1
  (sortByUpdatedTime map2).take max_results

/-- Merge of two hit lists keyed by path in which a hit of the first
(ranked) list wins every conflict. -/
def mergeRankedWins (a b : List TextResult) : List TextResult :=
  a ++ b.filter (fun r => !a.any (fun x => x.path == r.path))

/-- Claim C7 as stated, written from the specification words: run both
strategies, merge keyed by path with the ranked hit winning, re-sort
the merged set by update time descending, truncate to max_results. -/
def comprehensiveClaim (fts_search like_search : Nat → List TextResult)
    (max_results : Nat) : List TextResult :=
  (sortByUpdatedTime
    (mergeRankedWins (fts_search (max_results * 2))
      (like_search (max_results * 2)))).take max_results

/-- Claim C7 as amended, written from the amended words: the substring
strategy contributes only when the ranked strategy produced fewer than
max_results hits. -/
def comprehensiveAmendedSpec
    (fts_search like_search : Nat → List TextResult)
    (max_results : Nat) : List TextResult :=
  let f := fts_search (max_results * 2)
  (sortByUpdatedTime
    (if f.length < max_results then
      mergeRankedWins f (like_search (max_results * 2))
    else f)).take max_results

/-! ## Bulk path rewrite and indexing -/

/-- One UPDATE statement of update_archived_file_paths (source lines
1033 to 1053): set file_path to the new path on every row whose
file_path equals the old path, touching no other column. -/
def applyPathMapping (db : List ImageRecord) (pm : String × String) :
    List ImageRecord :=
  db.map (fun r =>
    if r.file_path = pm.1 then
      { r with file_path := pm.2 }
    else r)

/-- Model of update_archived_file_paths: executemany applies the
statements in list order; each pair is (old path, new path). -/
def update_archived_file_paths (db : List ImageRecord)
    (path_mappings : List (String × String)) : List ImageRecord :=
  path_mappings.foldl applyPathMapping db

/-- Path chasing through the mapping pairs in order: the file path a
record holding path p ends up with after all UPDATE statements ran. -/
def chasePath (path_mappings : List (String × String)) (p : String) : String :=
  path_mappings.foldl (fun q pm => if q = pm.1 then pm.2 else q) p

/-- Next surrogate key of an autoincrement insert. -/
def nextId (db : List ImageRecord) : Nat :=
  (db.foldl (fun m r => max m r.id) 0) + 1

/-- Model of add_image_to_index (source lines 441 to 468) on the path
where feature extraction succeeded: INSERT OR REPLACE deletes any row
with the same unique file_path and inserts a fresh row carrying the
newly computed fingerprints, empty OCR text, the supplied message id,
status pending and fail count zero. -/
def add_image_to_index (db : List ImageRecord)
    (file_path file_hash phash telegram_message_id : String) (now : ℚ) :
    List ImageRecord :=
  (db.filter (fun r => r.file_path != file_path)) ++
    [⟨nextId db, file_path, file_hash, some phash, "", telegram_message_id,
      now, "pending", 0⟩]

/-! ## Lemmas about the Hamming distance -/

theorem zip_filter_ne_comm : ∀ as bs : List Char, as.length = bs.length →
    ((as.zip bs).filter (fun p => p.1 != p.2)).length
      = ((bs.zip as).filter (fun p => p.1 != p.2)).length := by
  intro as
  induction as with
  | nil => intro bs h; cases bs <;> simp_all
  | cons a as ih =>
    intro bs h
    cases bs with
    | nil => simp at h
    | cons b bs =>
      simp only [List.length_cons] at h
      have ihb := ih bs (by omega)
      simp only [List.zip_cons_cons, List.filter_cons]
      by_cases hab : a = b
      · subst hab
        have d0 : (a != a) = false := by simp
        simp only [d0]
        simpa using ihb
      · have d1 : (a != b) = true := bne_iff_ne.mpr hab
        have d2 : (b != a) = true := bne_iff_ne.mpr (Ne.symm hab)
        simp only [d1, d2, if_true, List.length_cons]
        omega

theorem zip_filter_ne_nil_iff : ∀ as bs : List Char, as.length = bs.length →
    ((as.zip bs).filter (fun p => p.1 != p.2) = [] ↔ as = bs) := by
  intro as
  induction as with
  | nil => intro bs h; cases bs <;> simp_all
  | cons a as ih =>
    intro bs h
    cases bs with
    | nil => simp at h
    | cons b bs =>
      simp only [List.length_cons] at h
      have ihb := ih bs (by omega)
      simp only [List.zip_cons_cons, List.filter_cons]
      by_cases hab : a = b
      · subst hab
        have d0 : (a != a) = false := by simp
        simp only [d0, Bool.false_eq_true, if_false, List.cons.injEq, true_and]
        simpa using ihb
      · have d1 : (a != b) = true := bne_iff_ne.mpr hab
        simp only [d1, if_true]
        constructor
        · intro hc; exact absurd hc (by simp)
        · intro hc
          exact absurd hc (by simp [hab])

theorem hamming_comm (h1 h2 : String) :
    hamming_distance h1 h2 = hamming_distance h2 h1 := by
  unfold hamming_distance
  by_cases h : h1.length = h2.length
  · rw [if_neg (by omega), if_neg (by omega)]
    exact zip_filter_ne_comm h1.data h2.data h
  · rw [if_pos (by omega), if_pos (by omega)]

theorem hamming_eq_zero_iff (h1 h2 : String) :
    hamming_distance h1 h2 = 0 ↔ h1 = h2 := by
  unfold hamming_distance
  by_cases h : h1.length = h2.length
  · rw [if_neg (by omega), List.length_eq_zero,
      zip_filter_ne_nil_iff h1.data h2.data h]
    constructor
    · intro e
      cases h1; cases h2
      exact congrArg String.mk e
    · intro e; rw [e]
  · rw [if_pos (by omega)]
    constructor
    · intro hz; exact absurd hz (by omega)
    · intro he; subst he; exact absurd rfl h

theorem hamming_ne_length (h1 h2 : String) (h : h1.length ≠ h2.length) :
    hamming_distance h1 h2 = 64 := by
  unfold hamming_distance
  rw [if_pos (by omega)]

theorem hamming_le_of_len16 (h1 h2 : String)
    (e1 : h1.length = 16) (e2 : h2.length = 16) :
    hamming_distance h1 h2 ≤ 64 := by
  unfold hamming_distance
  rw [if_neg (by omega)]
  calc ((h1.data.zip h2.data).filter (fun p => p.1 != p.2)).length
      ≤ (h1.data.zip h2.data).length := (List.filter_sublist _).length_le
    _ ≤ h1.data.length := by rw [List.length_zip]; omega
    _ ≤ 64 := by have : h1.data.length = 16 := e1; omega

/-! ## Claim C2 -/

/-- C2: the Hamming-distance function on fingerprint strings is
symmetric, returns zero exactly on equal fingerprints, and on
fingerprints of unequal length returns 64, the total bit length of the
64-bit fingerprint, which bounds every distance between genuine
16-hex-character fingerprints; being a total function it never raises. -/
theorem hamming_distance_spec :
    (∀ a b : String, hamming_distance a b = hamming_distance b a) ∧
    (∀ a b : String, hamming_distance a b = 0 ↔ a = b) ∧
    (∀ a b : String, a.length ≠ b.length → hamming_distance a b = 64) ∧
    (∀ a b : String, a.length = 16 → b.length = 16 →
      hamming_distance a b ≤ 64) :=
  ⟨hamming_comm, hamming_eq_zero_iff, hamming_ne_length, hamming_le_of_len16⟩

/-- Witness for C2 at concrete fingerprints. -/
theorem hamming_distance_spec_witness :
    hamming_distance "abcd" "abce" = hamming_distance "abce" "abcd" ∧
    (hamming_distance "abcd" "abcd" = 0 ↔ ("abcd" : String) = "abcd") ∧
    hamming_distance "abc" "abcde" = 64 ∧
    hamming_distance "0123456789abcdef" "fedcba9876543210" ≤ 64 := by
  refine ⟨hamming_distance_spec.1 "abcd" "abce",
    hamming_distance_spec.2.1 "abcd" "abcd",
    hamming_distance_spec.2.2.1 "abc" "abcde" (by decide),
    hamming_distance_spec.2.2.2 "0123456789abcdef" "fedcba9876543210"
      (by decide) (by decide)⟩

/-! ## Lemmas about the cleaning pipeline -/

theorem squashRuns_mem (p : Char → Bool) (l : List Char) (c : Char) :
    c ∈ squashRuns p l → c = ' ' ∨ (c ∈ l ∧ p c = false) := by
  induction l using squashRuns.induct p with
  | case1 => intro h; simp [squashRuns] at h
  | case2 c' cs hp ih =>
    intro h
    rw [squashRuns, if_pos hp] at h
    rcases List.mem_cons.mp h with h | h
    · left; exact h
    · rcases ih h with h | ⟨h1, h2⟩
      · left; exact h
      · right
        exact ⟨List.mem_cons_of_mem _ ((List.dropWhile_sublist p).mem h1), h2⟩
  | case3 c' cs hp ih =>
    intro h
    rw [squashRuns, if_neg hp] at h
    rcases List.mem_cons.mp h with h | h
    · right; subst h; simp_all
    · rcases ih h with h | ⟨h1, h2⟩
      · left; exact h
      · right; exact ⟨List.mem_cons_of_mem _ h1, h2⟩

theorem squashRuns_head? (p : Char → Bool) (l : List Char) :
    (squashRuns p l).head? = l.head?.map (fun c => if p c then ' ' else c) := by
  cases l with
  | nil => rw [squashRuns]; rfl
  | cons c cs =>
    rw [squashRuns]
    by_cases hp : p c
    · rw [if_pos hp]; simp [hp]
    · rw [if_neg hp]; simp [hp]

theorem squashRuns_ne_nil (p : Char → Bool) (l : List Char) (h : l ≠ []) :
    squashRuns p l ≠ [] := by
  cases l with
  | nil => simp at h
  | cons c cs => rw [squashRuns]; by_cases hp : p c <;> simp [hp]

theorem squashRuns_chain' (p : Char → Bool) (l : List Char) :
    List.Chain' (fun a b => p a = false ∨ p b = false) (squashRuns p l) := by
  induction l using squashRuns.induct p with
  | case1 => simp [squashRuns]
  | case2 c cs hp ih =>
    rw [squashRuns, if_pos hp]
    rw [List.chain'_cons']
    refine ⟨?_, ih⟩
    intro y hy
    right
    rw [squashRuns_head? p] at hy
    cases hh : (cs.dropWhile p).head? with
    | none => rw [hh] at hy; simp at hy
    | some c' =>
      rw [hh] at hy
      have hpc' : p c' = false := by
        have hd := List.head?_dropWhile_not p cs
        rw [hh] at hd
        exact hd
      simp only [Option.map_some', Option.mem_def, Option.some.injEq] at hy
      rw [← hy]
      simp [hpc']
  | case3 c cs hp ih =>
    rw [squashRuns, if_neg hp]
    rw [List.chain'_cons']
    refine ⟨fun y _ => Or.inl (by simpa using hp), ih⟩

theorem getLast?_of_cons_ne_nil (c : Char) (cs : List Char) (h : Char)
    (hne : cs ≠ []) (hl : (c :: cs).getLast? = some h) :
    cs.getLast? = some h := by
  cases cs with
  | nil => exact absurd rfl hne
  | cons d ds => rw [List.getLast?_cons_cons] at hl; exact hl

theorem squashRuns_getLast? (p : Char → Bool) (l : List Char) (h : Char) :
    l.getLast? = some h → p h = false →
      (squashRuns p l).getLast? = some h := by
  induction l using squashRuns.induct p with
  | case1 => intro hl _; simp at hl
  | case2 c cs hp ih =>
    intro hl hph
    rw [squashRuns, if_pos hp]
    by_cases hcs : cs = []
    · subst hcs
      simp only [List.getLast?_cons, List.getLast?_nil, Option.getD_none,
        Option.some.injEq] at hl
      subst hl
      rw [hph] at hp
      exact absurd hp (by simp)
    · have hlcs : cs.getLast? = some h := getLast?_of_cons_ne_nil c cs h hcs hl
      have hne : cs.dropWhile p ≠ [] := by
        intro hnil
        rw [List.dropWhile_eq_nil_iff] at hnil
        have hmem : h ∈ cs := List.mem_of_mem_getLast? hlcs
        have hc := hnil h hmem
        rw [hph] at hc
        exact absurd hc (by simp)
      have hlast : (cs.dropWhile p).getLast? = some h := by
        obtain ⟨t, ht⟩ := List.dropWhile_suffix (l := cs) p
        rw [← ht, List.getLast?_append] at hlcs
        cases hx : (cs.dropWhile p).getLast? with
        | none =>
          rw [List.getLast?_eq_none_iff] at hx
          exact absurd hx hne
        | some x =>
          rw [hx] at hlcs
          simp only [Option.or_some, Option.some.injEq] at hlcs
          rw [hlcs]
      have hrec := ih hlast hph
      have hn2 : squashRuns p (cs.dropWhile p) ≠ [] :=
        squashRuns_ne_nil p _ hne
      cases hq : squashRuns p (cs.dropWhile p) with
      | nil => exact absurd hq hn2
      | cons e es =>
        rw [List.getLast?_cons_cons]
        rw [hq] at hrec
        exact hrec
  | case3 c cs hp ih =>
    intro hl hph
    rw [squashRuns, if_neg hp]
    by_cases hcs : cs = []
    · subst hcs
      simp only [List.getLast?_cons, List.getLast?_nil, Option.getD_none,
        Option.some.injEq] at hl
      rw [squashRuns]
      simp [hl]
    · have hlcs : cs.getLast? = some h := getLast?_of_cons_ne_nil c cs h hcs hl
      have hrec := ih hlcs hph
      have hn2 : squashRuns p cs ≠ [] := squashRuns_ne_nil p _ hcs
      cases hq : squashRuns p cs with
      | nil => exact absurd hq hn2
      | cons e es =>
        rw [List.getLast?_cons_cons]
        rw [hq] at hrec
        exact hrec

theorem squashRuns_eq_self (p : Char → Bool) (l : List Char) :
    (∀ c ∈ l, p c = true → c = ' ') →
      List.Chain' (fun a b => p a = false ∨ p b = false) l →
      squashRuns p l = l := by
  induction l using squashRuns.induct p with
  | case1 => intro _ _; rw [squashRuns]
  | case2 c cs hp ih =>
    intro hsp hch
    rw [squashRuns, if_pos hp]
    have hc : c = ' ' := hsp c (List.mem_cons_self c cs) hp
    have hdw : cs.dropWhile p = cs := by
      cases hcs : cs with
      | nil => rfl
      | cons d ds =>
        have hpd : p d = false := by
          rw [hcs] at hch
          rcases (List.chain'_cons.mp hch).1 with h | h
          · rw [h] at hp; exact absurd hp (by simp)
          · exact h
        exact List.dropWhile_cons_of_neg (by simp [hpd])
    rw [hdw] at ih ⊢
    rw [ih (fun x hx hpx => hsp x (List.mem_cons_of_mem _ hx) hpx) hch.tail]
    rw [hc]
  | case3 c cs hp ih =>
    intro hsp hch
    rw [squashRuns, if_neg hp]
    rw [ih (fun x hx hpx => hsp x (List.mem_cons_of_mem _ hx) hpx) hch.tail]

theorem squashRuns_eq_self_of_not (p : Char → Bool) (l : List Char)
    (h : ∀ c ∈ l, p c = false) : squashRuns p l = l := by
  induction l with
  | nil => rw [squashRuns]
  | cons c cs ih =>
    rw [squashRuns]
    have hc : p c = false := h c (List.mem_cons_self c cs)
    rw [if_neg (by simp [hc])]
    rw [ih (fun x hx => h x (List.mem_cons_of_mem _ hx))]

theorem dropWhile_eq_self_of_head (p : Char → Bool) (l : List Char)
    (h : ∀ c ∈ l.head?, p c = false) : l.dropWhile p = l := by
  cases l with
  | nil => rfl
  | cons c cs =>
    have hc : p c = false := h c (by simp)
    exact List.dropWhile_cons_of_neg (by simp [hc])

theorem pyStrip_sublist (l : List Char) : List.Sublist (pyStrip l) l := by
  unfold pyStrip
  have h1 : List.Sublist ((l.dropWhile isPySpace).reverse.dropWhile isPySpace)
      (l.dropWhile isPySpace).reverse := List.dropWhile_sublist _
  have h2 := h1.reverse
  rw [List.reverse_reverse] at h2
  exact h2.trans (List.dropWhile_sublist _)

theorem pyStrip_head? (l : List Char) (h : Char)
    (hh : (pyStrip l).head? = some h) : isPySpace h = false := by
  unfold pyStrip at hh
  have hpre : ((l.dropWhile isPySpace).reverse.dropWhile isPySpace).reverse
      <+: l.dropWhile isPySpace := by
    have h1 : (l.dropWhile isPySpace).reverse.dropWhile isPySpace <:+
        (l.dropWhile isPySpace).reverse := List.dropWhile_suffix _
    rw [← List.reverse_prefix] at h1
    simpa using h1
  obtain ⟨t, ht⟩ := hpre
  have hhy : (l.dropWhile isPySpace).head? = some h := by
    rw [← ht, List.head?_append, hh]
    rfl
  have hd := List.head?_dropWhile_not isPySpace l
  rw [hhy] at hd
  exact hd

theorem pyStrip_getLast? (l : List Char) (h : Char)
    (hh : (pyStrip l).getLast? = some h) : isPySpace h = false := by
  unfold pyStrip at hh
  rw [List.getLast?_reverse] at hh
  have hd := List.head?_dropWhile_not isPySpace (l.dropWhile isPySpace).reverse
  rw [hh] at hd
  exact hd

theorem pyStrip_eq_self (l : List Char)
    (hh : ∀ c, l.head? = some c → isPySpace c = false)
    (hl : ∀ c, l.getLast? = some c → isPySpace c = false) :
    pyStrip l = l := by
  unfold pyStrip
  have h1 : l.dropWhile isPySpace = l := by
    apply dropWhile_eq_self_of_head
    intro c hc
    exact hh c hc
  rw [h1]
  have h2 : l.reverse.dropWhile isPySpace = l.reverse := by
    apply dropWhile_eq_self_of_head
    intro c hc
    apply hl c
    rw [← List.head?_reverse]
    exact hc
  rw [h2, List.reverse_reverse]

theorem stripCollapse_mem (l : List Char) (c : Char)
    (h : c ∈ stripCollapse l) : c = ' ' ∨ (c ∈ l ∧ isPySpace c = false) := by
  rcases squashRuns_mem _ _ _ h with h1 | ⟨h1, h2⟩
  · left; exact h1
  · right; exact ⟨(pyStrip_sublist l).mem h1, h2⟩

theorem stripCollapse_ws (l : List Char) (c : Char) (hc : c ∈ stripCollapse l)
    (hw : isPySpace c = true) : c = ' ' := by
  rcases stripCollapse_mem l c hc with h | ⟨_, h2⟩
  · exact h
  · rw [hw] at h2; exact absurd h2 (by simp)

theorem stripCollapse_chain' (l : List Char) :
    List.Chain' (fun a b => isPySpace a = false ∨ isPySpace b = false)
      (stripCollapse l) :=
  squashRuns_chain' _ _

theorem stripCollapse_head? (l : List Char) (h : Char)
    (hh : (stripCollapse l).head? = some h) : isPySpace h = false := by
  unfold stripCollapse at hh
  rw [squashRuns_head?] at hh
  cases hx : (pyStrip l).head? with
  | none => rw [hx] at hh; simp at hh
  | some c =>
    have hpc : isPySpace c = false := pyStrip_head? l c hx
    rw [hx] at hh
    simp only [Option.map_some', Option.some.injEq] at hh
    rw [← hh]
    simp [hpc]

theorem stripCollapse_getLast? (l : List Char) (h : Char)
    (hh : (stripCollapse l).getLast? = some h) : isPySpace h = false := by
  unfold stripCollapse at hh
  cases hx : (pyStrip l).getLast? with
  | none =>
    rw [List.getLast?_eq_none_iff] at hx
    rw [hx, squashRuns] at hh
    simp at hh
  | some c =>
    have hpc : isPySpace c = false := pyStrip_getLast? l c hx
    have hg := squashRuns_getLast? isPySpace (pyStrip l) c hx hpc
    rw [hg] at hh
    simp only [Option.some.injEq] at hh
    rw [← hh]
    exact hpc

theorem stripCollapse_eq_self (l : List Char)
    (hw : ∀ c ∈ l, isPySpace c = true → c = ' ')
    (hch : List.Chain' (fun a b => isPySpace a = false ∨ isPySpace b = false) l)
    (hh : ∀ c, l.head? = some c → isPySpace c = false)
    (hl : ∀ c, l.getLast? = some c → isPySpace c = false) :
    stripCollapse l = l := by
  unfold stripCollapse
  rw [pyStrip_eq_self l hh hl]
  exact squashRuns_eq_self _ _ hw hch

theorem crlftab_ws (c : Char) (h : isCRLFTab c = true) : isPySpace c = true := by
  simp only [isCRLFTab, decide_eq_true_eq] at h
  have hn : c.toNat = 13 ∨ c.toNat = 10 ∨ c.toNat = 9 := by simpa using h
  rcases hn with hn | hn | hn <;> simp [isPySpace, pyWhitespaceCodes, hn]

theorem cleanChars_facts (wordP : Char → Bool) (l : List Char) (c : Char)
    (hc : c ∈ cleanChars wordP l) :
    (isPySpace c = true → c = ' ') ∧ keepChar wordP c = true ∧
      isCRLFTab c = false := by
  unfold cleanChars at hc
  rcases stripCollapse_mem _ c hc with h | ⟨h1, h2⟩
  · subst h
    refine ⟨fun _ => rfl, ?_, by decide⟩
    have hs : isPySpace ' ' = true := by decide
    simp [keepChar, hs]
  · have hkeep : keepChar wordP c = true := List.of_mem_filter h1
    refine ⟨fun hw => by rw [hw] at h2; exact absurd h2 (by simp), hkeep, ?_⟩
    cases hcr : isCRLFTab c
    · rfl
    · rw [crlftab_ws c hcr] at h2
      exact absurd h2 (by simp)

theorem cleanChars_idem (wordP : Char → Bool) (l : List Char) :
    cleanChars wordP (cleanChars wordP l) = cleanChars wordP l := by
  have hws : ∀ c ∈ cleanChars wordP l, isPySpace c = true → c = ' ' :=
    fun c hc => (cleanChars_facts wordP l c hc).1
  have hkeep : ∀ c ∈ cleanChars wordP l, keepChar wordP c = true :=
    fun c hc => (cleanChars_facts wordP l c hc).2.1
  have hcrlf : ∀ c ∈ cleanChars wordP l, isCRLFTab c = false :=
    fun c hc => (cleanChars_facts wordP l c hc).2.2
  have hch : List.Chain'
      (fun a b => isPySpace a = false ∨ isPySpace b = false)
      (cleanChars wordP l) := by
    unfold cleanChars
    exact stripCollapse_chain' _
  have hhd : ∀ c, (cleanChars wordP l).head? = some c →
      isPySpace c = false := by
    intro c hc
    unfold cleanChars at hc
    exact stripCollapse_head? _ c hc
  have hlst : ∀ c, (cleanChars wordP l).getLast? = some c →
      isPySpace c = false := by
    intro c hc
    unfold cleanChars at hc
    exact stripCollapse_getLast? _ c hc
  conv_lhs => rw [cleanChars]
  rw [squashRuns_eq_self_of_not isCRLFTab _ hcrlf]
  rw [stripCollapse_eq_self _ hws hch hhd hlst]
  rw [List.filter_eq_self.mpr hkeep]
  exact stripCollapse_eq_self _ hws hch hhd hlst

/-! ## Claim C6 -/

/-- C6: the text-cleaning function is idempotent: for every string t,
cleaning the cleaned string changes nothing; proved for the model of
clean_text, with the inner pipeline lemma holding for every
word-character predicate. -/
theorem clean_text_idempotent :
    ∀ s : String, clean_text (clean_text s) = clean_text s := by
  intro s
  by_cases h : s = ""
  · subst h
    have h0 : clean_text "" = "" := by rw [clean_text]; rfl
    rw [h0]
    exact h0
  · have hs : clean_text s = ⟨cleanChars pyWordChar s.data⟩ := by
      rw [clean_text, if_neg h]
    rw [hs]
    by_cases h2 : (⟨cleanChars pyWordChar s.data⟩ : String) = ""
    · rw [clean_text, if_pos h2, h2]
    · rw [clean_text, if_neg h2]
      exact congrArg String.mk (cleanChars_idem pyWordChar s.data)

/-! ## Lemmas about variant expansion -/

theorem vstep_decomp (t2s s2t : String → Option String) (acc : List String)
    (k : String) :
    ∃ e, variantsStep t2s s2t acc k = acc ++ [k] ++ e := by
  simp only [variantsStep]
  cases t2s k with
  | none => exact ⟨[], by simp⟩
  | some s =>
    cases s2t k with
    | none => exact ⟨[], by simp⟩
    | some t =>
      dsimp only
      by_cases h1 : t ≠ k ∧ t ∉ acc ++ [k]
      · rw [if_pos h1]
        by_cases h2 : s ≠ k ∧ s ∉ acc ++ [k] ++ [t]
        · rw [if_pos h2]
          exact ⟨[t, s], by simp⟩
        · rw [if_neg h2]
          exact ⟨[t], by simp⟩
      · rw [if_neg h1]
        by_cases h2 : s ≠ k ∧ s ∉ acc ++ [k]
        · rw [if_pos h2]
          exact ⟨[s], by simp⟩
        · rw [if_neg h2]
          exact ⟨[], by simp⟩

theorem foldVariants_decomp (t2s s2t : String → Option String) :
    ∀ (ks : List String) (acc : List String),
      ∃ t, ks.foldl (variantsStep t2s s2t) acc = acc ++ t ∧
        List.Sublist ks t := by
  intro ks
  induction ks with
  | nil => intro acc; exact ⟨[], by simp, List.nil_sublist _⟩
  | cons k ks ih =>
    intro acc
    obtain ⟨e, he⟩ := vstep_decomp t2s s2t acc k
    obtain ⟨t', ht', hs'⟩ := ih (variantsStep t2s s2t acc k)
    refine ⟨[k] ++ (e ++ t'), ?_, ?_⟩
    · rw [List.foldl_cons, ht', he]
      simp [List.append_assoc]
    · rw [List.singleton_append]
      apply List.Sublist.cons₂
      exact hs'.trans (List.sublist_append_right e t')

theorem foldVariants_mem_mono (t2s s2t : String → Option String)
    (ks : List String) (acc : List String) (v : String) (hv : v ∈ acc) :
    v ∈ ks.foldl (variantsStep t2s s2t) acc := by
  obtain ⟨t, ht, _⟩ := foldVariants_decomp t2s s2t ks acc
  rw [ht]
  exact List.mem_append_left _ hv

theorem vstep_conversions (t2s s2t : String → Option String)
    (acc : List String) (k s t : String) (h2 : t2s k = some s)
    (h3 : s2t k = some t) :
    s ∈ variantsStep t2s s2t acc k ∧ t ∈ variantsStep t2s s2t acc k := by
  simp only [variantsStep, h2, h3]
  by_cases hc1 : t ≠ k ∧ t ∉ acc ++ [k]
  · rw [if_pos hc1]
    have ht : t ∈ acc ++ [k] ++ [t] := by simp
    by_cases hc2 : s ≠ k ∧ s ∉ acc ++ [k] ++ [t]
    · rw [if_pos hc2]
      exact ⟨by simp, List.mem_append_left _ ht⟩
    · rw [if_neg hc2]
      rcases Decidable.not_and_iff_or_not.mp hc2 with hs | hs
      · have : s = k := by simpa using hs
        subst this
        exact ⟨by simp, ht⟩
      · have : s ∈ acc ++ [k] ++ [t] := not_not.mp hs
        exact ⟨this, ht⟩
  · rw [if_neg hc1]
    have ht : t ∈ acc ++ [k] := by
      rcases Decidable.not_and_iff_or_not.mp hc1 with hx | hx
      · have : t = k := by simpa using hx
        subst this; simp
      · exact not_not.mp hx
    by_cases hc2 : s ≠ k ∧ s ∉ acc ++ [k]
    · rw [if_pos hc2]
      exact ⟨by simp, List.mem_append_left _ ht⟩
    · rw [if_neg hc2]
      rcases Decidable.not_and_iff_or_not.mp hc2 with hs | hs
      · have : s = k := by simpa using hs
        subst this
        exact ⟨by simp, ht⟩
      · have : s ∈ acc ++ [k] := not_not.mp hs
        exact ⟨this, ht⟩

theorem foldVariants_conversions (t2s s2t : String → Option String) :
    ∀ (ks : List String) (acc : List String) (k : String), k ∈ ks →
      ∀ s t, t2s k = some s → s2t k = some t →
        s ∈ ks.foldl (variantsStep t2s s2t) acc ∧
        t ∈ ks.foldl (variantsStep t2s s2t) acc := by
  intro ks
  induction ks with
  | nil => intro acc k hk; simp at hk
  | cons k' ks ih =>
    intro acc k hk s t h2 h3
    rcases List.mem_cons.mp hk with hk | hk
    · subst hk
      obtain ⟨hs, ht⟩ := vstep_conversions t2s s2t acc k s t h2 h3
      rw [List.foldl_cons]
      exact ⟨foldVariants_mem_mono t2s s2t ks _ s hs,
        foldVariants_mem_mono t2s s2t ks _ t ht⟩
    · rw [List.foldl_cons]
      exact ih _ k hk s t h2 h3

theorem vstep_provenance (t2s s2t : String → Option String)
    (acc : List String) (k v : String)
    (hv : v ∈ variantsStep t2s s2t acc k) :
    v ∈ acc ∨ v = k ∨ ∃ s t, t2s k = some s ∧ s2t k = some t ∧
      (v = s ∨ v = t) ∧ v ≠ k := by
  revert hv
  simp only [variantsStep]
  cases ht2 : t2s k with
  | none =>
    intro hv
    rcases List.mem_append.mp hv with hv | hv
    · exact Or.inl hv
    · exact Or.inr (Or.inl (by simpa using hv))
  | some s =>
    cases ht3 : s2t k with
    | none =>
      intro hv
      rcases List.mem_append.mp hv with hv | hv
      · exact Or.inl hv
      · exact Or.inr (Or.inl (by simpa using hv))
    | some t =>
      dsimp only
      by_cases h1 : t ≠ k ∧ t ∉ acc ++ [k]
      · rw [if_pos h1]
        by_cases h2 : s ≠ k ∧ s ∉ acc ++ [k] ++ [t]
        · rw [if_pos h2]
          intro hv
          rcases List.mem_append.mp hv with hv | hv
          · rcases List.mem_append.mp hv with hv | hv
            · rcases List.mem_append.mp hv with hv | hv
              · exact Or.inl hv
              · exact Or.inr (Or.inl (by simpa using hv))
            · have hvt : v = t := by simpa using hv
              exact Or.inr (Or.inr ⟨s, t, rfl, rfl, Or.inr hvt, hvt ▸ h1.1⟩)
          · have hvs : v = s := by simpa using hv
            exact Or.inr (Or.inr ⟨s, t, rfl, rfl, Or.inl hvs, hvs ▸ h2.1⟩)
        · rw [if_neg h2]
          intro hv
          rcases List.mem_append.mp hv with hv | hv
          · rcases List.mem_append.mp hv with hv | hv
            · exact Or.inl hv
            · exact Or.inr (Or.inl (by simpa using hv))
          · have hvt : v = t := by simpa using hv
            exact Or.inr (Or.inr ⟨s, t, rfl, rfl, Or.inr hvt, hvt ▸ h1.1⟩)
      · rw [if_neg h1]
        by_cases h2 : s ≠ k ∧ s ∉ acc ++ [k]
        · rw [if_pos h2]
          intro hv
          rcases List.mem_append.mp hv with hv | hv
          · rcases List.mem_append.mp hv with hv | hv
            · exact Or.inl hv
            · exact Or.inr (Or.inl (by simpa using hv))
          · have hvs : v = s := by simpa using hv
            exact Or.inr (Or.inr ⟨s, t, rfl, rfl, Or.inl hvs, hvs ▸ h2.1⟩)
        · rw [if_neg h2]
          intro hv
          rcases List.mem_append.mp hv with hv | hv
          · exact Or.inl hv
          · exact Or.inr (Or.inl (by simpa using hv))

theorem foldVariants_provenance (t2s s2t : String → Option String) :
    ∀ (ks acc : List String) (v : String),
      v ∈ ks.foldl (variantsStep t2s s2t) acc →
      v ∈ acc ∨ v ∈ ks ∨ ∃ k ∈ ks, ∃ s t, t2s k = some s ∧
        s2t k = some t ∧ (v = s ∨ v = t) ∧ v ≠ k := by
  intro ks
  induction ks with
  | nil => intro acc v hv; exact Or.inl (by simpa using hv)
  | cons k' ks ih =>
    intro acc v hv
    rw [List.foldl_cons] at hv
    rcases ih _ v hv with hv' | hv' | ⟨k, hk, s, t, h2, h3, hvst, hvk⟩
    · rcases vstep_provenance t2s s2t acc k' v hv' with h | h | ⟨s, t, h2, h3, hvst, hvk⟩
      · exact Or.inl h
      · exact Or.inr (Or.inl (by simp [h]))
      · exact Or.inr (Or.inr ⟨k', List.mem_cons_self _ _, s, t, h2, h3, hvst, hvk⟩)
    · exact Or.inr (Or.inl (List.mem_cons_of_mem _ hv'))
    · exact Or.inr (Or.inr ⟨k, List.mem_cons_of_mem _ hk, s, t, h2, h3, hvst, hvk⟩)

theorem vstep_count (t2s s2t : String → Option String)
    (acc : List String) (k v : String) (hvk : v ≠ k)
    (hc : acc.count v ≤ 1) :
    (variantsStep t2s s2t acc k).count v ≤ 1 := by
  have hck : (acc ++ [k]).count v = acc.count v := by
    rw [List.count_append]
    simp [List.count_singleton', hvk]
  simp only [variantsStep]
  cases ht2 : t2s k with
  | none => rw [hck]; exact hc
  | some s =>
    cases ht3 : s2t k with
    | none => rw [hck]; exact hc
    | some t =>
      dsimp only
      by_cases h1 : t ≠ k ∧ t ∉ acc ++ [k]
      · rw [if_pos h1]
        have hc2 : ((acc ++ [k]) ++ [t]).count v ≤ 1 := by
          by_cases hvt : v = t
          · subst hvt
            rw [List.count_append, List.count_eq_zero.mpr h1.2]
            simp [List.count_singleton']
          · rw [List.count_append]
            have : ([t] : List String).count v = 0 := by
              rw [List.count_eq_zero]
              simp [hvt]
            rw [this, hck]
            omega
        by_cases h2 : s ≠ k ∧ s ∉ (acc ++ [k]) ++ [t]
        · rw [if_pos h2]
          by_cases hvs : v = s
          · subst hvs
            rw [List.count_append, List.count_eq_zero.mpr h2.2]
            simp [List.count_singleton']
          · rw [List.count_append]
            have : ([s] : List String).count v = 0 := by
              rw [List.count_eq_zero]
              simp [hvs]
            rw [this]
            omega
        · rw [if_neg h2]
          exact hc2
      · rw [if_neg h1]
        by_cases h2 : s ≠ k ∧ s ∉ acc ++ [k]
        · rw [if_pos h2]
          by_cases hvs : v = s
          · subst hvs
            rw [List.count_append, List.count_eq_zero.mpr h2.2]
            simp [List.count_singleton']
          · rw [List.count_append]
            have : ([s] : List String).count v = 0 := by
              rw [List.count_eq_zero]
              simp [hvs]
            rw [this, hck]
            omega
        · rw [if_neg h2]
          rw [hck]
          exact hc

theorem foldVariants_count (t2s s2t : String → Option String) :
    ∀ (ks acc : List String) (v : String), v ∉ ks → acc.count v ≤ 1 →
      (ks.foldl (variantsStep t2s s2t) acc).count v ≤ 1 := by
  intro ks
  induction ks with
  | nil => intro acc v _ hc; simpa using hc
  | cons k' ks ih =>
    intro acc v hv hc
    rw [List.foldl_cons]
    have hvk : v ≠ k' := fun he => hv (he ▸ List.mem_cons_self _ _)
    exact ih _ v (fun hm => hv (List.mem_cons_of_mem _ hm))
      (vstep_count t2s s2t acc k' v hvk hc)

/-! ## Claim C8 -/

/-- C8: variant expansion preserves the original tokens in their
original order (they form a sublist of the result in order, and in fact
every token is present); for every token whose two conversions succeed,
both conversions appear in the result; every result entry is an
original token or a successful conversion of one that differs from it;
and a value that is not an original token appears at most once, because
a variant is only appended when not already present.  Conversion
failure is modelled by the converter functions returning none: the
theorem quantifies over all converter functions, so a failure on one
token leaves that token in place and the remaining tokens processed. -/
theorem get_all_variants_spec (t2s s2t : String → Option String)
    (keywords : List String) :
    List.Sublist keywords (get_all_variants t2s s2t keywords) ∧
    (∀ k ∈ keywords, ∀ s t, t2s k = some s → s2t k = some t →
      s ∈ get_all_variants t2s s2t keywords ∧
      t ∈ get_all_variants t2s s2t keywords) ∧
    (∀ v ∈ get_all_variants t2s s2t keywords,
      v ∈ keywords ∨ ∃ k ∈ keywords, ∃ s t, t2s k = some s ∧
        s2t k = some t ∧ (v = s ∨ v = t) ∧ v ≠ k) ∧
    (∀ v, v ∉ keywords → (get_all_variants t2s s2t keywords).count v ≤ 1) := by
  refine ⟨?_, ?_, ?_, ?_⟩
  · obtain ⟨t, ht, hs⟩ := foldVariants_decomp t2s s2t keywords []
    unfold get_all_variants
    rw [ht, List.nil_append]
    exact hs
  · intro k hk s t h2 h3
    exact foldVariants_conversions t2s s2t keywords [] k hk s t h2 h3
  · intro v hv
    rcases foldVariants_provenance t2s s2t keywords [] v hv with h | h
    · simp at h
    · exact h
  · intro v hv
    exact foldVariants_count t2s s2t keywords [] v hv (by simp)

/-- Witness for C8 at a concrete converter pair and token list: the
token ab converts to AB and ab2, the token cd fails conversion. -/
theorem get_all_variants_spec_witness :
    ("zz" ∉ (["ab", "cd"] : List String)) ∧
    ("AB" ∈ get_all_variants
      (fun k => if k = "ab" then some "AB" else none)
      (fun k => if k = "ab" then some "ab2" else none) ["ab", "cd"]) ∧
    (get_all_variants
      (fun k => if k = "ab" then some "AB" else none)
      (fun k => if k = "ab" then some "ab2" else none)
      ["ab", "cd"]).count "zz" ≤ 1 := by
  refine ⟨by decide, ?_, ?_⟩
  · exact ((get_all_variants_spec
      (fun k => if k = "ab" then some "AB" else none)
      (fun k => if k = "ab" then some "ab2" else none)
      ["ab", "cd"]).2.1 "ab" (by decide) "AB" "ab2" (by decide) (by decide)).1
  · exact (get_all_variants_spec
      (fun k => if k = "ab" then some "AB" else none)
      (fun k => if k = "ab" then some "ab2" else none)
      ["ab", "cd"]).2.2.2 "zz" (by decide)

/-! ## Lemmas about similarity search -/

theorem similarScan_eq (qp : String) (t : ℤ) (db : List ImageRecord) :
    similarScan qp t db =
      (db.filter (fun r =>
        match r.phash with
        | none => false
        | some p =>
          p != "" && decide ((hamming_distance qp p : ℤ) ≤ t))).map
        (fun r => phashResult r (hamming_distance qp (r.phash.getD ""))) := by
  induction db with
  | nil => rfl
  | cons r rest ih =>
    rw [List.filter_cons]
    cases hp : r.phash with
    | none =>
      simp only [similarScan, hp]
      simpa using ih
    | some p =>
      simp only [similarScan, hp]
      by_cases he : p = ""
      · subst he
        simp [ih]
      · by_cases hd : (hamming_distance qp p : ℤ) ≤ t
        · simp [he, hd, ih, hp, bne_iff_ne]
        · simp [he, hd, ih, bne_iff_ne]

/-! ## Claim C1 -/

/-- C1: when some stored record has the same content hash as the query
image, search_similar_images returns exactly the first such record as
its only result with similarity 1.0, for every threshold and
max_results value; and the answer is independent of every perceptual
hash in the store (and of the query fingerprint), so no
perceptual-hash comparison influences it. -/
theorem search_similar_exact_match (db : List ImageRecord) (qhash : String)
    (r : ImageRecord)
    (h : db.find? (fun x => x.file_hash == qhash) = some r) :
    r ∈ db ∧ r.file_hash = qhash ∧
    (∀ qphash threshold max_results,
      search_similar_images db qhash qphash threshold max_results =
        [exactResult r] ∧ (exactResult r).similarity = 1) ∧
    (∀ (f : ImageRecord → Option String) qphash threshold max_results,
      search_similar_images (db.map (fun x => { x with phash := f x }))
        qhash qphash threshold max_results = [exactResult r]) := by
  refine ⟨List.mem_of_find?_eq_some h, ?_, ?_, ?_⟩
  · have := List.find?_some h
    simpa using this
  · intro qphash threshold max_results
    rw [search_similar_images, h]
    exact ⟨rfl, rfl⟩
  · intro f qphash threshold max_results
    rw [search_similar_images]
    have hm : (db.map (fun x => { x with phash := f x })).find?
        (fun x => x.file_hash == qhash) =
        some { r with phash := f r } := by
      rw [List.find?_map]
      have hcomp : ((fun (x : ImageRecord) => x.file_hash == qhash) ∘
          (fun (x : ImageRecord) => { x with phash := f x })) =
          (fun (x : ImageRecord) => x.file_hash == qhash) := rfl
      rw [hcomp, h]
      rfl
    rw [hm]
    rfl

/-- Witness for C1 at a concrete store: one stored record shares its
content hash with the query. -/
theorem search_similar_exact_match_witness :
    (⟨1, "a.png", "h1", some "0123456789abcdef", "txt", "m1", 2, "completed",
      0⟩ : ImageRecord) ∈
      [(⟨1, "a.png", "h1", some "0123456789abcdef", "txt", "m1", 2,
        "completed", 0⟩ : ImageRecord)] ∧
    search_similar_images
      [⟨1, "a.png", "h1", some "0123456789abcdef", "txt", "m1", 2,
        "completed", 0⟩] "h1" "ffffffffffffffff" 5 3 =
      [exactResult ⟨1, "a.png", "h1", some "0123456789abcdef", "txt", "m1",
        2, "completed", 0⟩] := by
  have h := search_similar_exact_match
    [⟨1, "a.png", "h1", some "0123456789abcdef", "txt", "m1", 2,
      "completed", 0⟩] "h1"
    ⟨1, "a.png", "h1", some "0123456789abcdef", "txt", "m1", 2,
      "completed", 0⟩ (by rfl)
  exact ⟨h.1, (h.2.2.1 "ffffffffffffffff" 5 3).1⟩

/-! ## Claim C3 -/

/-- C3 counterexample: a stored record with a non-null but empty
perceptual hash is skipped by the scan loop even though its Hamming
distance to the query fingerprint (64, by the unequal-length rule) is
within the threshold 64, so the claim that exactly the records with a
non-null perceptual hash within threshold are returned fails on it. -/
theorem search_similar_empty_phash_cex :
    search_similar_images
      [⟨1, "a.png", "h1", some "", "", "m1", 0, "pending", 0⟩]
      "hq" "0000000000000000" 64 3 = [] ∧
    (⟨1, "a.png", "h1", some "", "", "m1", 0, "pending", 0⟩ :
      ImageRecord).phash ≠ none ∧
    ((hamming_distance "0000000000000000" "" : ℤ) ≤ 64) := by
  refine ⟨?_, by decide, by decide⟩
  rfl

/-- C3 as amended: for a query with no exact content-hash match, the
result is exactly the stored records with a non-null and non-empty
perceptual hash whose Hamming distance to the query fingerprint is at
most threshold, scored one minus distance over 64, sorted descending
by score (stable in scan order) and truncated to max_results. -/
theorem search_similar_no_exact (db : List ImageRecord)
    (qhash qphash : String) (threshold : ℤ) (max_results : Nat)
    (h : ∀ r ∈ db, r.file_hash ≠ qhash) :
    search_similar_images db qhash qphash threshold max_results =
      findSimilarSpec db qphash threshold max_results := by
  have hfind : db.find? (fun r => r.file_hash == qhash) = none := by
    rw [List.find?_eq_none]
    intro r hr
    simpa using h r hr
  rw [search_similar_images, hfind, findSimilarSpec, similarScan_eq]

/-- Witness for C3 as amended at a concrete store and query: two
records within threshold, one empty-phash record skipped. -/
theorem search_similar_no_exact_witness :
    search_similar_images
      [⟨1, "a.png", "h1", some "0000000000000000", "", "m1", 1, "pending", 0⟩,
       ⟨2, "b.png", "h2", some "", "", "m2", 2, "pending", 0⟩,
       ⟨3, "c.png", "h3", some "0000000000000001", "", "m3", 3, "pending", 0⟩]
      "hq" "0000000000000000" 5 2 =
    findSimilarSpec
      [⟨1, "a.png", "h1", some "0000000000000000", "", "m1", 1, "pending", 0⟩,
       ⟨2, "b.png", "h2", some "", "", "m2", 2, "pending", 0⟩,
       ⟨3, "c.png", "h3", some "0000000000000001", "", "m3", 3, "pending", 0⟩]
      "0000000000000000" 5 2 := by
  apply search_similar_no_exact
  intro r hr
  fin_cases hr <;> decide

/-! ## Claim C4 -/

theorem find_first_unique (db : List ImageRecord) (r : ImageRecord)
    (p : ImageRecord → Bool) (hr : r ∈ db) (hp : p r = true)
    (hu : ∀ x ∈ db, p x = true → x = r) :
    db.find? p = some r := by
  induction db with
  | nil => simp at hr
  | cons d rest ih =>
    rcases List.mem_cons.mp hr with hd | hd
    · subst hd
      rw [List.find?_cons_of_pos _ hp]
    · by_cases hpd : p d = true
      · have : d = r := hu d (List.mem_cons_self _ _) hpd
        subst this
        rw [List.find?_cons_of_pos _ hpd]
      · rw [List.find?_cons_of_neg _ (by simpa using hpd)]
        exact ih hd (fun x hx hpx => hu x (List.mem_cons_of_mem _ hx) hpx)

/-- C4: the batch query of the OCR processor selects only records whose
status is pending, or failed with fewer than max_retries failures, and
at most batch_size of them; a record that has accumulated max_retries
failures is never selected (given that ids identify records), yet is
still reachable by the direct message-id lookup, which ignores OCR
state. -/
theorem claimPendingOcr_spec (db : List ImageRecord)
    (batch_size max_retries : Nat) :
    (claimPendingOcr db batch_size max_retries).length ≤ batch_size ∧
    (∀ x ∈ claimPendingOcr db batch_size max_retries,
      ∃ r ∈ db, x = (r.id, r.file_path) ∧
        (r.ocr_status = "pending" ∨
          (r.ocr_status = "failed" ∧ r.ocr_fail_count < max_retries))) ∧
    (∀ r ∈ db, r.ocr_status = "failed" → max_retries ≤ r.ocr_fail_count →
      (∀ x ∈ db, x.id = r.id → x = r) →
      (r.id, r.file_path) ∉ claimPendingOcr db batch_size max_retries) ∧
    (∀ r ∈ db,
      (∀ x ∈ db, x.telegram_message_id = r.telegram_message_id → x = r) →
      find_by_message_id db r.telegram_message_id = some r) := by
  refine ⟨?_, ?_, ?_, ?_⟩
  · calc (claimPendingOcr db batch_size max_retries).length
        = ((db.filter (pendingPred max_retries)).take batch_size).length := by
          rw [claimPendingOcr, List.length_map]
      _ ≤ batch_size := List.length_take_le _ _
  · intro x hx
    rw [claimPendingOcr] at hx
    obtain ⟨r, hr, hxr⟩ := List.mem_map.mp hx
    have hr' : r ∈ db.filter (pendingPred max_retries) :=
      List.mem_of_mem_take hr
    have hmem : r ∈ db := List.mem_of_mem_filter hr'
    have hpred : pendingPred max_retries r = true := List.of_mem_filter hr'
    refine ⟨r, hmem, hxr.symm, ?_⟩
    rw [pendingPred] at hpred
    simp only [Bool.or_eq_true, Bool.and_eq_true, beq_iff_eq,
      decide_eq_true_eq] at hpred
    exact hpred
  · intro r hr hst hcnt hu hmem
    rw [claimPendingOcr] at hmem
    obtain ⟨x, hx, hxr⟩ := List.mem_map.mp hmem
    have hx' : x ∈ db.filter (pendingPred max_retries) :=
      List.mem_of_mem_take hx
    have hxdb : x ∈ db := List.mem_of_mem_filter hx'
    have hpred : pendingPred max_retries x = true := List.of_mem_filter hx'
    have hxid : x.id = r.id := by
      have := congrArg Prod.fst hxr
      simpa using this
    have hxe : x = r := hu x hxdb hxid
    subst hxe
    rw [pendingPred] at hpred
    simp only [Bool.or_eq_true, Bool.and_eq_true, beq_iff_eq,
      decide_eq_true_eq] at hpred
    rcases hpred with hpend | ⟨_, hlt⟩
    · rw [hst] at hpend
      exact absurd hpend (by decide)
    · omega
  · intro r hr hu
    apply find_first_unique db r _ hr (by simp)
    intro x hx hpx
    exact hu x hx (by simpa using hpx)

/-- Witness for C4 at a concrete store: one pending record, one failed
record at the retry bound. -/
theorem claimPendingOcr_spec_witness :
    (∃ r ∈ [(⟨1, "a.png", "h1", some "p1", "", "m1", 1, "pending", 0⟩ :
        ImageRecord),
      ⟨2, "b.png", "h2", some "p2", "", "m2", 2, "failed", 3⟩],
      ((1 : Nat), "a.png") = (r.id, r.file_path) ∧
        (r.ocr_status = "pending" ∨
          (r.ocr_status = "failed" ∧ r.ocr_fail_count < 3))) ∧
    ((2 : Nat), "b.png") ∉ claimPendingOcr
      [⟨1, "a.png", "h1", some "p1", "", "m1", 1, "pending", 0⟩,
       ⟨2, "b.png", "h2", some "p2", "", "m2", 2, "failed", 3⟩] 10 3 ∧
    find_by_message_id
      [⟨1, "a.png", "h1", some "p1", "", "m1", 1, "pending", 0⟩,
       ⟨2, "b.png", "h2", some "p2", "", "m2", 2, "failed", 3⟩] "m2" =
      some ⟨2, "b.png", "h2", some "p2", "", "m2", 2, "failed", 3⟩ := by
  have h := claimPendingOcr_spec
    [⟨1, "a.png", "h1", some "p1", "", "m1", 1, "pending", 0⟩,
     ⟨2, "b.png", "h2", some "p2", "", "m2", 2, "failed", 3⟩] 10 3
  refine ⟨?_, ?_, ?_⟩
  · exact h.2.1 ((1 : Nat), "a.png") (by decide)
  · exact h.2.2.1 ⟨2, "b.png", "h2", some "p2", "", "m2", 2, "failed", 3⟩
      (by decide) (by decide) (by decide) (by decide)
  · exact h.2.2.2 ⟨2, "b.png", "h2", some "p2", "", "m2", 2, "failed", 3⟩
      (by decide) (by decide)

/-! ## Claim C9 -/

theorem update_getElem? (pms : List (String × String)) :
    ∀ (db : List ImageRecord) (i : Nat),
      (update_archived_file_paths db pms)[i]? =
        (db[i]?).map
          (fun r => { r with file_path := chasePath pms r.file_path }) := by
  induction pms with
  | nil =>
    intro db i
    rw [update_archived_file_paths, List.foldl_nil]
    cases db[i]? <;> rfl
  | cons pm pms ih =>
    intro db i
    rw [update_archived_file_paths, List.foldl_cons]
    have step := ih (applyPathMapping db pm) i
    rw [update_archived_file_paths] at step
    rw [step]
    rw [applyPathMapping, List.getElem?_map]
    cases db[i]? with
    | none => rfl
    | some r =>
      simp only [Option.map_some']
      by_cases hc : r.file_path = pm.1
      · rw [if_pos hc]
        have : chasePath (pm :: pms) r.file_path = chasePath pms pm.2 := by
          rw [chasePath, List.foldl_cons, if_pos hc]
          rfl
        rw [this]
      · rw [if_neg hc]
        have : chasePath (pm :: pms) r.file_path =
            chasePath pms r.file_path := by
          rw [chasePath, List.foldl_cons, if_neg hc]
          rfl
        rw [this]

theorem chasePath_eq_self (pms : List (String × String)) (p : String)
    (h : p ∉ pms.map Prod.fst) : chasePath pms p = p := by
  induction pms with
  | nil => rfl
  | cons pm pms ih =>
    have hne : p ≠ pm.1 := by
      intro he
      apply h
      rw [List.map_cons, he]
      exact List.mem_cons_self _ _
    rw [chasePath, List.foldl_cons, if_neg hne]
    exact ih (fun hm => h (by rw [List.map_cons]; exact List.mem_cons_of_mem _ hm))

/-- C9: the bulk path rewrite leaves every column except file_path of
every record unchanged (each record keeps its id, hashes, OCR text,
message id, update time, OCR status and fail count, its path being
chased through the mapping pairs in order), and a record whose path
appears in no pair is entirely unchanged. -/
theorem update_archived_file_paths_spec (db : List ImageRecord)
    (pms : List (String × String)) :
    (update_archived_file_paths db pms).length = db.length ∧
    (∀ (i : Nat), (update_archived_file_paths db pms)[i]? =
      (db[i]?).map
        (fun (r : ImageRecord) =>
          { r with file_path := chasePath pms r.file_path })) ∧
    (∀ (i : Nat) (r : ImageRecord), db[i]? = some r →
      r.file_path ∉ pms.map Prod.fst →
      (update_archived_file_paths db pms)[i]? = some r) := by
  refine ⟨?_, update_getElem? pms db, ?_⟩
  · rw [update_archived_file_paths]
    induction pms generalizing db with
    | nil => rfl
    | cons pm pms ih =>
      rw [List.foldl_cons]
      rw [ih (applyPathMapping db pm)]
      rw [applyPathMapping, List.length_map]
  · intro i r hi hnp
    rw [update_getElem? pms db i, hi, Option.map_some']
    rw [chasePath_eq_self pms r.file_path hnp]

/-- Witness for C9 at a concrete store and mapping list: one record is
remapped, one is untouched. -/
theorem update_archived_file_paths_spec_witness :
    (update_archived_file_paths
      [⟨1, "old.png", "h1", some "p1", "t1", "m1", 1, "completed", 0⟩,
       ⟨2, "keep.png", "h2", some "p2", "t2", "m2", 2, "failed", 2⟩]
      [("old.png", "new.png")]).length = 2 ∧
    (update_archived_file_paths
      [⟨1, "old.png", "h1", some "p1", "t1", "m1", 1, "completed", 0⟩,
       ⟨2, "keep.png", "h2", some "p2", "t2", "m2", 2, "failed", 2⟩]
      [("old.png", "new.png")])[1]? =
      some ⟨2, "keep.png", "h2", some "p2", "t2", "m2", 2, "failed", 2⟩ := by
  have h := update_archived_file_paths_spec
    [⟨1, "old.png", "h1", some "p1", "t1", "m1", 1, "completed", 0⟩,
     ⟨2, "keep.png", "h2", some "p2", "t2", "m2", 2, "failed", 2⟩]
    [("old.png", "new.png")]
  exact ⟨h.1, h.2.2 1
    ⟨2, "keep.png", "h2", some "p2", "t2", "m2", 2, "failed", 2⟩
    (by decide) (by decide)⟩

/-! ## Claim C10 -/

/-- C10: reindexing an already indexed path replaces the record: after
add_image_to_index exactly one record carries that path; it holds empty
OCR text, status pending, fail count zero, the newly supplied message
id and the newly computed fingerprints (so previously stored OCR text
is discarded); records at other paths survive. -/
theorem add_image_to_index_spec (db : List ImageRecord)
    (fp fh ph mid : String) (now : ℚ) :
    (add_image_to_index db fp fh ph mid now).countP
      (fun r => r.file_path == fp) = 1 ∧
    (∀ r ∈ add_image_to_index db fp fh ph mid now, r.file_path = fp →
      r.ocr_text = "" ∧ r.ocr_status = "pending" ∧ r.ocr_fail_count = 0 ∧
      r.telegram_message_id = mid ∧ r.file_hash = fh ∧ r.phash = some ph) ∧
    (∀ r ∈ db, r.file_path ≠ fp →
      r ∈ add_image_to_index db fp fh ph mid now) := by
  refine ⟨?_, ?_, ?_⟩
  · rw [add_image_to_index, List.countP_append]
    have h1 : (db.filter (fun r => r.file_path != fp)).countP
        (fun r => r.file_path == fp) = 0 := by
      rw [List.countP_eq_zero]
      intro r hr
      have := List.of_mem_filter hr
      simp only [bne_iff_ne, ne_eq] at this
      simp [this]
    rw [h1]
    simp [List.countP_cons]
  · intro r hr hfp
    rw [add_image_to_index] at hr
    rcases List.mem_append.mp hr with hr | hr
    · have := List.of_mem_filter hr
      rw [bne_iff_ne] at this
      exact absurd hfp this
    · have : r = ⟨nextId db, fp, fh, some ph, "", mid, now, "pending", 0⟩ := by
        simpa using hr
      subst this
      exact ⟨rfl, rfl, rfl, rfl, rfl, rfl⟩
  · intro r hr hne
    rw [add_image_to_index]
    apply List.mem_append_left
    exact List.mem_filter.mpr ⟨hr, bne_iff_ne.mpr hne⟩

/-- Witness for C10 at a concrete store: the path a.png is reindexed
with fresh data; the old completed OCR text disappears and the
bystander record survives. -/
theorem add_image_to_index_spec_witness :
    (add_image_to_index
      [⟨1, "a.png", "oldhash", some "oldp", "old text", "oldmid", 1,
        "completed", 2⟩,
       ⟨2, "b.png", "h2", some "p2", "t2", "m2", 2, "pending", 0⟩]
      "a.png" "newhash" "newp" "newmid" 9).countP
        (fun r => r.file_path == "a.png") = 1 ∧
    (∀ r ∈ add_image_to_index
      [⟨1, "a.png", "oldhash", some "oldp", "old text", "oldmid", 1,
        "completed", 2⟩,
       ⟨2, "b.png", "h2", some "p2", "t2", "m2", 2, "pending", 0⟩]
      "a.png" "newhash" "newp" "newmid" 9, r.file_path = "a.png" →
      r.ocr_text = "" ∧ r.ocr_status = "pending" ∧ r.ocr_fail_count = 0 ∧
      r.telegram_message_id = "newmid" ∧ r.file_hash = "newhash" ∧
      r.phash = some "newp") ∧
    (⟨2, "b.png", "h2", some "p2", "t2", "m2", 2, "pending", 0⟩ :
      ImageRecord) ∈ add_image_to_index
      [⟨1, "a.png", "oldhash", some "oldp", "old text", "oldmid", 1,
        "completed", 2⟩,
       ⟨2, "b.png", "h2", some "p2", "t2", "m2", 2, "pending", 0⟩]
      "a.png" "newhash" "newp" "newmid" 9 := by
  have h := add_image_to_index_spec
    [⟨1, "a.png", "oldhash", some "oldp", "old text", "oldmid", 1,
      "completed", 2⟩,
     ⟨2, "b.png", "h2", some "p2", "t2", "m2", 2, "pending", 0⟩]
    "a.png" "newhash" "newp" "newmid" 9
  exact ⟨h.1, h.2.1,
    h.2.2 ⟨2, "b.png", "h2", some "p2", "t2", "m2", 2, "pending", 0⟩
      (by decide) (by decide)⟩

/-! ## Claim C7 -/

theorem foldl_upsert_of_distinct :
    ∀ (l acc : List TextResult),
      (∀ r ∈ l, ∀ x ∈ acc, x.path ≠ r.path) →
      l.Pairwise (fun a b => a.path ≠ b.path) →
      l.foldl upsertByPath acc = acc ++ l := by
  intro l
  induction l with
  | nil => intro acc _ _; simp
  | cons r l ih =>
    intro acc hacc hpw
    rw [List.foldl_cons]
    have hup : upsertByPath acc r = acc ++ [r] := by
      rw [upsertByPath]
      have hnone : acc.findIdx? (fun x => x.path == r.path) = none := by
        rw [List.findIdx?_eq_none_iff]
        intro x hx
        simpa using hacc r (List.mem_cons_self _ _) x hx
      rw [hnone]
    rw [hup]
    rw [ih (acc ++ [r]) ?later (List.Pairwise.of_cons hpw)]
    · simp
    case later =>
      intro y hy x hx
      rcases List.mem_append.mp hx with hx | hx
      · exact hacc y (List.mem_cons_of_mem _ hy) x hx
      · have : x = r := by simpa using hx
        subst this
        exact (List.rel_of_pairwise_cons hpw hy)

theorem foldl_addIfAbsent_of_distinct :
    ∀ (l acc : List TextResult),
      l.Pairwise (fun a b => a.path ≠ b.path) →
      l.foldl addIfAbsent acc =
        acc ++ l.filter (fun r => !acc.any (fun x => x.path == r.path)) := by
  intro l
  induction l with
  | nil => intro acc _; simp
  | cons r l ih =>
    intro acc hpw
    rw [List.foldl_cons, List.filter_cons, addIfAbsent]
    by_cases hmem : acc.any (fun x => x.path == r.path)
    · rw [if_pos hmem]
      have hneg : (!acc.any (fun x => x.path == r.path)) = false := by
        simp [hmem]
      rw [hneg]
      simp only [Bool.false_eq_true, if_false]
      exact ih acc (List.Pairwise.of_cons hpw)
    · rw [if_neg hmem]
      have hpos : (!acc.any (fun x => x.path == r.path)) = true := by
        simpa using hmem
      rw [hpos, if_pos rfl]
      rw [ih (acc ++ [r]) (List.Pairwise.of_cons hpw)]
      have hfc : l.filter
          (fun y => !(acc ++ [r]).any (fun x => x.path == y.path)) =
          l.filter (fun y => !acc.any (fun x => x.path == y.path)) := by
        apply List.filter_congr
        intro y hy
        have hry : r.path ≠ y.path := List.rel_of_pairwise_cons hpw hy
        simp [List.any_append, hry]
      rw [hfc]
      simp

/-- C7 counterexample: with the ranked strategy returning the single
hit for path a and the substring strategy the single newer hit for
path b, at max_results one the code returns only the ranked hit, while
the claimed merge-then-resort returns the newer substring hit; so the
substring strategy is not always run and merged. -/
theorem comprehensive_search_cex :
    comprehensive_search
      (fun _ => [⟨"a", "ma", 1, "FTS5", some 0⟩])
      (fun _ => [⟨"b", "mb", 5, "LIKE", none⟩]) 1 =
      [⟨"a", "ma", 1, "FTS5", some 0⟩] ∧
    comprehensiveClaim
      (fun _ => [⟨"a", "ma", 1, "FTS5", some 0⟩])
      (fun _ => [⟨"b", "mb", 5, "LIKE", none⟩]) 1 =
      [⟨"b", "mb", 5, "LIKE", none⟩] ∧
    (⟨"a", "ma", 1, "FTS5", some 0⟩ : TextResult) ≠
      ⟨"b", "mb", 5, "LIKE", none⟩ := by
  refine ⟨by rfl, by rfl, by decide⟩

/-- C7 as amended: in comprehensive mode the ranked strategy always
runs (asked for twice max_results hits); the substring strategy runs
and is merged, ranked hits winning path conflicts, only when the
ranked hits number fewer than max_results; the chosen set is re-sorted
by update time descending and truncated to max_results.  Stated for
strategy outputs without duplicate paths, which the store guarantees
since file paths are unique. -/
theorem comprehensive_search_amended
    (fts_search like_search : Nat → List TextResult) (max_results : Nat)
    (hf : (fts_search (max_results * 2)).Pairwise
      (fun a b => a.path ≠ b.path))
    (hl : (like_search (max_results * 2)).Pairwise
      (fun a b => a.path ≠ b.path)) :
    comprehensive_search fts_search like_search max_results =
      comprehensiveAmendedSpec fts_search like_search max_results := by
  rw [comprehensive_search, comprehensiveAmendedSpec]
  have h1 : (fts_search (max_results * 2)).foldl upsertByPath [] =
      fts_search (max_results * 2) := by
    have := foldl_upsert_of_distinct (fts_search (max_results * 2)) []
      (by intro r _ x hx; simp at hx) hf
    simpa using this
  rw [h1]
  by_cases hlen : (fts_search (max_results * 2)).length < max_results
  · rw [if_pos hlen, if_pos hlen]
    rw [foldl_addIfAbsent_of_distinct _ _ hl]
    rw [mergeRankedWins]
  · rw [if_neg hlen, if_neg hlen]

/-- Witness for C7 as amended at concrete strategies: the ranked
strategy covers the requested result count, so the substring hit for a
distinct path is not consulted. -/
theorem comprehensive_search_amended_witness :
    comprehensive_search
      (fun _ => [⟨"a", "ma", 1, "FTS5", some 0⟩])
      (fun _ => [⟨"b", "mb", 5, "LIKE", none⟩]) 1 =
      comprehensiveAmendedSpec
        (fun _ => [⟨"a", "ma", 1, "FTS5", some 0⟩])
        (fun _ => [⟨"b", "mb", 5, "LIKE", none⟩]) 1 := by
  apply comprehensive_search_amended
  · simp
  · simp

/-! ## Claim C5 -/

/-- C5 counterexample: when the configuration selects the engine
strategy and lazily loading the engine fails, ensure_ocr_engine
re-raises and the exception leaves extract_text_from_image (the call
to ensure_ocr_engine sits before its try block), so the caller does
see an exception rather than an empty string. -/
theorem extract_text_engine_failure_cex :
    extract_text_from_image
      ⟨false, "", false, Except.error "recognition never ran"⟩ =
      Except.error "Failed to load OCR engine" := by
  rfl

/-- C5 as amended: once the gateway has a working strategy (the Mac
shortcut path is selected, or the engine loads), extraction never
raises: it always returns ok, and any exception thrown by recognition
itself is caught and converted to the empty string; only failure to
acquire the engine propagates to the caller. -/
theorem extract_text_no_raise (env : OcrEnv)
    (h : env.use_mac_shortcuts = true ∨ env.engine_loads = true) :
    (∃ s, extract_text_from_image env = Except.ok s) ∧
    (∀ e, env.recognition = Except.error e →
      env.use_mac_shortcuts = false →
      extract_text_from_image env = Except.ok "") := by
  constructor
  · rw [extract_text_from_image]
    by_cases hmac : env.use_mac_shortcuts = true
    · rw [if_pos hmac]
      exact ⟨env.mac_text, rfl⟩
    · rw [if_neg hmac]
      have heng : env.engine_loads = true := by
        rcases h with h | h
        · exact absurd h hmac
        · exact h
      rw [if_neg (by simp [heng])]
      cases hrec : env.recognition with
      | error e => exact ⟨"", rfl⟩
      | ok pairs => exact ⟨clean_text (joinRecognized pairs), rfl⟩
  · intro e hrec hmac
    rw [extract_text_from_image, if_neg (by simp [hmac])]
    have heng : env.engine_loads = true := by
      rcases h with h | h
      · rw [h] at hmac; exact absurd hmac (by simp)
      · exact h
    rw [if_neg (by simp [heng]), hrec]

/-- Witness for C5 as amended at a concrete environment: the engine
loads and recognition throws; the call returns ok with the empty
string. -/
theorem extract_text_no_raise_witness :
    (∃ s, extract_text_from_image
      ⟨false, "", true, Except.error "ocr blew up"⟩ = Except.ok s) ∧
    extract_text_from_image
      ⟨false, "", true, Except.error "ocr blew up"⟩ = Except.ok "" := by
  have h := extract_text_no_raise
    ⟨false, "", true, Except.error "ocr blew up"⟩ (Or.inr rfl)
  exact ⟨h.1, h.2 "ocr blew up" rfl rfl⟩
